import Mathlib

/-!
Verification of the krusz audio bitcrusher (src/main.rs).

Shallow embedding conventions:
* `i16` samples are embedded as `Int` values in `[-32768, 32768)`; the bitwise
  operations of `requantize_sample` act on the 16-bit two's-complement pattern,
  embedded as a `Nat` below `65536` (`i16ToBits` / `i16OfBits`).
* `f64` arithmetic in the resampler (`resample`, `lerp`) is modelled by exact
  rational arithmetic over `ℚ`; `f64::round` (round half away from zero)
  becomes `roundQ`, and the saturating `as i16` cast becomes `clampI16`.
* Rust panics are modelled explicitly where they matter: `Sound.to_source`
  returns `Option` (its slice indexing can go out of bounds), and the
  assertions at the head of `lerp` are captured by the predicate `lerpPre`.
-/

namespace Krusz

/-- The interpolation method for resampling (src/main.rs, `enum Interpolation`). -/
inductive Interpolation
  | Nearest
  | Linear
deriving DecidableEq

/-- One channel worth of 16-bit samples (src/main.rs, `struct Channel`). -/
structure Channel where
  samples : List Int
deriving DecidableEq

instance : Inhabited Channel := ⟨⟨[]⟩⟩

/-- A multi-channel sound (src/main.rs, `struct Sound`). -/
structure Sound where
  channels : List Channel
  sample_rate : Nat
deriving DecidableEq

/-- The 16-bit two's-complement bit pattern of an `i16` value. -/
def i16ToBits (s : Int) : Nat := (s % 65536).toNat

/-- The `i16` value denoted by a 16-bit pattern. -/
def i16OfBits (n : Nat) : Int := if n < 32768 then (n : Int) else (n : Int) - 65536

/-- `fn requantize_sample(sample: i16, bit_depth: u8) -> i16` (src/main.rs:260-272).
`hi_mask` is the i16 bit pattern of `!0 << (16 - bit_depth)`, `lo_mask` of
`!hi_mask`, `msb` of `sample & (1 << 15)`, and `fill` of `if msb == 0 { !0 }
else { 0 }`; the result is `(sample & hi_mask) | (fill & lo_mask)`. -/
def requantize_sample (sample : Int) (bit_depth : Nat) : Int :=
  if bit_depth = 16 then sample
  else
    let hi_mask : Nat := (65535 <<< (16 - bit_depth)) &&& 65535
    let lo_mask : Nat := hi_mask ^^^ 65535
    let s : Nat := i16ToBits sample
    let msb : Nat := s &&& 32768
    let fill : Nat := if msb = 0 then 65535 else 0
    i16OfBits ((s &&& hi_mask) ||| (fill &&& lo_mask))

/-- `fn requantize(sound: Sound, bit_depth: u8) -> Sound` (src/main.rs:243-258). -/
def requantize (sound : Sound) (bit_depth : Nat) : Sound :=
  { channels := sound.channels.map (fun channel =>
      { samples := channel.samples.map (fun sample => requantize_sample sample bit_depth) })
    sample_rate := sound.sample_rate }

/-! The resampler. `f64` arithmetic is modelled by exact rational arithmetic. -/

/-- Rounding half away from zero, the behaviour of `f64::round`. -/
def roundQ (q : ℚ) : ℤ := if 0 ≤ q then ⌊q + 1/2⌋ else ⌈q - 1/2⌉

/-- The saturating `as i16` cast applied to a rounded interpolation value. -/
def clampI16 (v : ℤ) : ℤ := max (-32768) (min 32767 v)

/-- The assertions at the head of `fn lerp` (src/main.rs:215-221): `values` is
non-empty and `0 ≤ f < values.len()`. -/
def lerpPre (values : List Int) (f : ℚ) : Prop :=
  values ≠ [] ∧ 0 ≤ f ∧ f < (values.length : ℚ)

/-- `fn lerp(values, f, interpolation) -> f64` (src/main.rs:210-241), after its
assertions: `x = f as usize`, `y = (x + 1).min(values.len() - 1)`,
`a = f.fract()` (for `f ≥ 0`, truncation is `⌊f⌋` and `fract` is `f - ⌊f⌋`). -/
def lerp (values : List Int) (f : ℚ) (interpolation : Interpolation) : ℚ :=
  let x : Nat := (⌊f⌋).toNat
  let y : Nat := min (x + 1) (values.length - 1)
  let a : ℚ := f - ⌊f⌋
  match interpolation with
  | .Nearest => if a < 1/2 then ((values.getD x 0 : ℤ) : ℚ) else ((values.getD y 0 : ℤ) : ℚ)
  | .Linear => (1 - a) * ((values.getD x 0 : ℤ) : ℚ) + a * ((values.getD y 0 : ℤ) : ℚ)

/-- `fn resample(sound, sample_rate, interpolation) -> Sound`
(src/main.rs:179-208). `sound.channels[0]` is modelled by `headI`; every claim
about `resample` assumes at least one channel, as the Rust code does. -/
def resample (sound : Sound) (sample_rate : Nat) (interpolation : Interpolation) : Sound :=
  let n : Nat := sound.channels.headI.samples.length
  if n = 0 then
    { channels := sound.channels, sample_rate := sample_rate }
  else
    let r : ℚ := (sample_rate : ℚ) / (sound.sample_rate : ℚ)
    let q : ℚ := 1 / r
    let new_sample_count : Nat := (roundQ ((n : ℚ) * r)).toNat
    { channels := sound.channels.map (fun channel =>
        { samples := (List.range new_sample_count).map (fun (i : Nat) =>
            clampI16 (roundQ (lerp channel.samples ((i : ℚ) * q) interpolation))) })
      sample_rate := sample_rate }

/-! Deinterleave (`Sound::new`) and reinterleave (`Sound::to_source`). -/

/-- Rust's `Iterator::step_by(c)`: yields the first element, then every `c`-th
element after it. -/
def stepBy {α : Type} (c : Nat) : List α → List α
  | [] => []
  | x :: xs => x :: stepBy c (xs.drop (c - 1))
termination_by l => l.length
decreasing_by
  simp only [List.length_drop, List.length_cons]
  omega

/-- `Sound::new` (src/main.rs:67-84): channel `i` is
`samples.iter().skip(i).step_by(channels_count)`, with the channel count and
sample rate taken from the source. -/
def Sound.new (channels_count : Nat) (samples : List Int) (sample_rate : Nat) : Sound :=
  { channels := (List.range channels_count).map (fun (i : Nat) =>
      { samples := stepBy channels_count (samples.drop i) })
    sample_rate := sample_rate }

/-- `Sound::to_source` (src/main.rs:86-98): emits `c * channels[0].len()`
samples, reading `channels[i % c].samples[i / c]`. The `Option` models the
panics of `self.channels[0]` and of the two slice indexings. -/
def Sound.to_source (sound : Sound) : Option (List Int) :=
  (sound.channels[0]?).bind (fun ch0 =>
    (List.range (sound.channels.length * ch0.samples.length)).mapM (fun (i : Nat) =>
      (sound.channels[i % sound.channels.length]?).bind
        (fun ch => ch.samples[i / sound.channels.length]?)))

/-! Bit-level bridge lemmas for `requantize_sample`. -/

lemma hi_mask_val (k : Nat) (h1 : 1 ≤ k) (h2 : k ≤ 15) :
    (65535 <<< k) &&& 65535 = 65536 - 2^k := by
  interval_cases k <;> decide

lemma lo_mask_val (k : Nat) (h1 : 1 ≤ k) (h2 : k ≤ 15) :
    (65536 - 2^k) ^^^ 65535 = 2^k - 1 := by
  interval_cases k <;> decide

lemma fill_and_lo (k : Nat) (h1 : 1 ≤ k) (h2 : k ≤ 15) :
    65535 &&& (2^k - 1) = 2^k - 1 := by
  interval_cases k <;> decide

/-- Masking with the top `16 - k` bits of a 16-bit word clears the value to the
next lower multiple of `2^k`. -/
lemma and_hi (k n : Nat) (hk : k ≤ 16) (hn : n < 65536) :
    n &&& (65536 - 2^k) = 2^k * (n / 2^k) := by
  have h65536 : (65536 : Nat) = 2^16 := by norm_num
  have hmask : (65536 - 2^k : Nat) = (2^(16-k) - 1) <<< k := by
    rw [Nat.shiftLeft_eq, Nat.sub_mul, one_mul, ← pow_add]
    have hk16 : 16 - k + k = 16 := by omega
    rw [hk16]
    norm_num
  have hrhs : 2^k * (n / 2^k) = (n >>> k) <<< k := by
    rw [Nat.shiftLeft_eq, Nat.shiftRight_eq_div_pow, Nat.mul_comm]
  rw [hmask, hrhs]
  apply Nat.eq_of_testBit_eq
  intro i
  simp only [Nat.testBit_and, Nat.testBit_shiftLeft, Nat.testBit_shiftRight,
    Nat.testBit_two_pow_sub_one]
  rcases lt_or_le i k with h | h
  · simp [Nat.not_le.mpr h]
  · rcases lt_or_le i 16 with h16 | h16
    · have e1 : k + (i - k) = i := by omega
      have e2 : i - k < 16 - k := by omega
      simp [h, e1, e2]
    · have hni : n.testBit i = false := by
        apply Nat.testBit_lt_two_pow
        calc n < 2^16 := h65536 ▸ hn
        _ ≤ 2^i := Nat.pow_le_pow_right (by norm_num) h16
      have e1 : k + (i - k) = i := by omega
      simp [h, e1, hni]

lemma and_32768_eq_zero_iff (n : Nat) (hn : n < 65536) :
    (n &&& 32768 = 0) ↔ n < 32768 := by
  have h := and_hi 15 n (by norm_num) hn
  norm_num at h
  rw [h]
  omega

/-! Bit-pattern facts about `i16ToBits` / `i16OfBits`. -/

lemma i16ToBits_lt (s : Int) : i16ToBits s < 65536 := by
  unfold i16ToBits
  omega

lemma i16ToBits_of_nonneg (s : Int) (h0 : 0 ≤ s) (h : s < 32768) :
    ((i16ToBits s : Nat) : Int) = s ∧ i16ToBits s < 32768 := by
  unfold i16ToBits
  constructor <;> omega

lemma i16ToBits_of_neg (s : Int) (hneg : s < 0) (h : -32768 ≤ s) :
    ((i16ToBits s : Nat) : Int) = s + 65536 ∧ 32768 ≤ i16ToBits s := by
  unfold i16ToBits
  constructor <;> omega

/-- For a non-negative sample, requantization fills the low `16 - d` bits with
ones: the value becomes `s - s % 2^(16-d) + (2^(16-d) - 1)`, still a valid
non-negative `i16`. -/
lemma requantize_sample_eq_nonneg (s : Int) (d : Nat) (hd1 : 1 ≤ d) (hd15 : d ≤ 15)
    (h0 : 0 ≤ s) (hs2 : s < 32768) :
    requantize_sample s d = s - s % 2^(16-d) + (2^(16-d) - 1) ∧
    0 ≤ requantize_sample s d ∧ requantize_sample s d < 32768 := by
  obtain ⟨hcast, hlt⟩ := i16ToBits_of_nonneg s h0 hs2
  set k : Nat := 16 - d with hk
  have hk1 : 1 ≤ k := by omega
  have hk15 : k ≤ 15 := by omega
  set n : Nat := i16ToBits s with hn
  have hexp : (0:Nat) < 2^k := Nat.pos_pow_of_pos k (by norm_num)
  have hmsb : n &&& 32768 = 0 := by
    rw [and_32768_eq_zero_iff n (i16ToBits_lt s)]
    exact hlt
  have hor : 2^k * (n / 2^k) ||| (2^k - 1) = 2^k * (n / 2^k) + (2^k - 1) :=
    (Nat.mul_add_lt_is_or (Nat.sub_lt hexp (by norm_num)) (n / 2^k)).symm
  have hstep : requantize_sample s d = i16OfBits (2^k * (n / 2^k) + (2^k - 1)) := by
    unfold requantize_sample
    rw [if_neg (by omega)]
    simp only [← hk, ← hn, hi_mask_val k hk1 hk15, lo_mask_val k hk1 hk15, hmsb, if_pos,
      fill_and_lo k hk1 hk15, and_hi k n (by omega) (i16ToBits_lt s), hor]
  -- the filled value stays below `2^15`, because `2^k * (n / 2^k)` is a
  -- multiple of `2^k` that is at most `n < 2^15 = 2^k * 2^(15-k)`
  have hpow : 2^k * 2^(15-k) = 32768 := by
    rw [← pow_add]
    have h15 : k + (15 - k) = 15 := by omega
    rw [h15]
    norm_num
  have hmul_le : 2^k * (n / 2^k) ≤ n := Nat.mul_div_le n (2^k)
  have hqlt : n / 2^k < 2^(15-k) := by
    by_contra hcon
    push_neg at hcon
    have := Nat.mul_le_mul_left (2^k) hcon
    omega
  have hm_lt : 2^k * (n / 2^k) + (2^k - 1) < 32768 := by
    have hsucc : 2^k * (n / 2^k + 1) ≤ 2^k * 2^(15-k) := Nat.mul_le_mul_left (2^k) hqlt
    rw [Nat.mul_add, Nat.mul_one] at hsucc
    omega
  rw [hstep]
  unfold i16OfBits
  rw [if_pos hm_lt]
  -- translate the bit-pattern value back to `i16` arithmetic
  have hqr : 2^k * (n / 2^k) + n % 2^k = n := Nat.div_add_mod n (2^k)
  set q : Nat := n / 2^k with hq
  set r : Nat := n % 2^k with hr
  have hrlt : r < 2^k := Nat.mod_lt n hexp
  have hs_eq : s = (2^k : ℤ) * q + r := by
    rw [← hcast]
    exact_mod_cast (congrArg (Nat.cast : Nat → Int) hqr).symm
  have hsmod : s % ((2:ℤ)^k) = r := by
    rw [hs_eq, show (2^k : ℤ) * q + r = r + q * 2^k by ring, Int.add_mul_emod_self,
      Int.emod_eq_of_lt (by positivity) (by exact_mod_cast hrlt)]
  have hcast2 : ((2^k * q + (2^k - 1) : ℕ) : ℤ) = (2:ℤ)^k * q + ((2:ℤ)^k - 1) := by
    push_cast [Nat.cast_sub hexp]
    ring
  refine ⟨?_, ?_, ?_⟩
  · rw [hcast2, hsmod, hs_eq]
    ring
  · exact Int.natCast_nonneg _
  · exact_mod_cast hm_lt

/-- For a negative sample, requantization zeroes the low `16 - d` bits: the
value becomes `s - s % 2^(16-d)`, still a valid negative `i16`. -/
lemma requantize_sample_eq_neg (s : Int) (d : Nat) (hd1 : 1 ≤ d) (hd15 : d ≤ 15)
    (hneg : s < 0) (hs1 : -32768 ≤ s) :
    requantize_sample s d = s - s % 2^(16-d) ∧
    requantize_sample s d < 0 ∧ -32768 ≤ requantize_sample s d := by
  obtain ⟨hcast, hge⟩ := i16ToBits_of_neg s hneg hs1
  set k : Nat := 16 - d with hk
  have hk1 : 1 ≤ k := by omega
  have hk15 : k ≤ 15 := by omega
  set n : Nat := i16ToBits s with hn
  have hexp : (0:Nat) < 2^k := Nat.pos_pow_of_pos k (by norm_num)
  have hnlt : n < 65536 := i16ToBits_lt s
  have hmsb : ¬ (n &&& 32768 = 0) := by
    rw [and_32768_eq_zero_iff n hnlt]
    omega
  have hstep : requantize_sample s d = i16OfBits (2^k * (n / 2^k)) := by
    unfold requantize_sample
    rw [if_neg (by omega)]
    simp only [← hk, ← hn, hi_mask_val k hk1 hk15, lo_mask_val k hk1 hk15, hmsb, if_false,
      Nat.zero_and, Nat.or_zero, and_hi k n (by omega) hnlt]
  have hpow : 2^k * 2^(15-k) = 32768 := by
    rw [← pow_add]
    have h15 : k + (15 - k) = 15 := by omega
    rw [h15]
    norm_num
  have hmul_le : 2^k * (n / 2^k) ≤ n := Nat.mul_div_le n (2^k)
  have hq_ge : 2^(15-k) ≤ n / 2^k := by
    have h1 : (32768:ℕ) / 2^k ≤ n / 2^k := Nat.div_le_div_right hge
    have h2 : (32768:ℕ) / 2^k = 2^(15-k) := by
      rw [show (32768:ℕ) = 2^15 by norm_num]
      exact Nat.pow_div hk15 (by norm_num)
    omega
  have hm_ge : 32768 ≤ 2^k * (n / 2^k) := by
    have := Nat.mul_le_mul_left (2^k) hq_ge
    omega
  rw [hstep]
  unfold i16OfBits
  rw [if_neg (by omega)]
  have hqr : 2^k * (n / 2^k) + n % 2^k = n := Nat.div_add_mod n (2^k)
  set q : Nat := n / 2^k with hq
  set r : Nat := n % 2^k with hr
  have hrlt : r < 2^k := Nat.mod_lt n hexp
  have hncast : ((n:ℕ) : ℤ) = (2^k : ℤ) * q + r := by
    exact_mod_cast (congrArg (Nat.cast : Nat → Int) hqr).symm
  have h65536 : (65536:ℤ) = 2^(16-k) * 2^k := by
    rw [← pow_add]
    have h16 : 16 - k + k = 16 := by omega
    rw [h16]
    norm_num
  have hs_eq : s = r + ((q:ℤ) - 2^(16-k)) * 2^k := by
    have : s = ((n:ℕ) : ℤ) - 65536 := by omega
    rw [this, hncast, h65536]
    ring
  have hsmod : s % ((2:ℤ)^k) = r := by
    rw [hs_eq, Int.add_mul_emod_self,
      Int.emod_eq_of_lt (by positivity) (by exact_mod_cast hrlt)]
  refine ⟨?_, ?_, ?_⟩
  · rw [hsmod, hs_eq]
    have hc : ((2:ℤ)^k) * 2^(16-k) = 65536 := (mul_comm _ _).trans h65536.symm
    push_cast
    linarith [hc]
  · have hmlt : 2^k * q < 65536 := lt_of_le_of_lt hmul_le hnlt
    omega
  · omega

/-- The top bit of the bit pattern of an `i16` is set exactly for negative values. -/
lemma i16ToBits_msb (v : Int) (h1 : -32768 ≤ v) (h2 : v < 32768) :
    i16ToBits v &&& 32768 = if v < 0 then 32768 else 0 := by
  have h := and_hi 15 (i16ToBits v) (by norm_num) (i16ToBits_lt v)
  norm_num at h
  rcases lt_or_le v 0 with hneg | h0
  · have hge := (i16ToBits_of_neg v hneg h1).2
    have hlt := i16ToBits_lt v
    rw [if_pos hneg, h]
    omega
  · have hlt := (i16ToBits_of_nonneg v h0 h2).2
    rw [if_neg (not_lt.mpr h0), h]
    omega

/-- Requantizing twice at the same depth changes nothing (per sample). -/
lemma requantize_sample_idem (s : Int) (d : Nat) (hd1 : 1 ≤ d) (hd16 : d ≤ 16)
    (hs1 : -32768 ≤ s) (hs2 : s < 32768) :
    requantize_sample (requantize_sample s d) d = requantize_sample s d := by
  rcases eq_or_lt_of_le hd16 with h16 | h15
  · subst h16
    simp [requantize_sample]
  · have hd15 : d ≤ 15 := by omega
    set p : ℤ := 2^(16-d) with hp
    have hppos : (0:ℤ) < p := by positivity
    have hself : s - s % p = p * (s / p) := by
      rw [Int.emod_def]
      ring
    rcases le_or_lt 0 s with h0 | hneg
    · obtain ⟨he, h0', hlt'⟩ := requantize_sample_eq_nonneg s d hd1 hd15 h0 hs2
      obtain ⟨he2, _, _⟩ := requantize_sample_eq_nonneg (requantize_sample s d) d hd1 hd15 h0' hlt'
      rw [he2, he]
      have hmod0 : (s - s % p + (p - 1)) % p = p - 1 := by
        rw [hself, show p * (s / p) + (p - 1) = (p - 1) + (s / p) * p by ring,
          Int.add_mul_emod_self, Int.emod_eq_of_lt (by linarith) (by linarith)]
      rw [hmod0]
      ring
    · obtain ⟨he, hneg', hge'⟩ := requantize_sample_eq_neg s d hd1 hd15 hneg hs1
      obtain ⟨he2, _, _⟩ := requantize_sample_eq_neg (requantize_sample s d) d hd1 hd15 hneg' hge'
      rw [he2, he]
      have hmod0 : (s - s % p) % p = 0 := by
        rw [hself]
        exact Int.mul_emod_right p (s / p)
      rw [hmod0]
      ring

/-- C2: for `1 ≤ d ≤ 15` the requantized sample is
`(s & hi_mask) | (fill & lo_mask)` where `hi_mask = 65536 - 2^(16-d)` has
exactly the top `d` bits set, `lo_mask` is its bitwise complement, and the
fill pattern is all ones when `s` is non-negative and all zeroes when `s` is
negative. -/
theorem requantize_sample_mask_formula (s : Int) (d : Nat) (hd1 : 1 ≤ d) (hd15 : d ≤ 15)
    (hs1 : -32768 ≤ s) (hs2 : s < 32768) :
    requantize_sample s d =
      i16OfBits ((i16ToBits s &&& (65536 - 2^(16-d))) |||
        ((if 0 ≤ s then 65535 else 0) &&& ((65536 - 2^(16-d)) ^^^ 65535))) := by
  have hiff : (i16ToBits s &&& 32768 = 0) ↔ (0 ≤ s) := by
    rw [and_32768_eq_zero_iff _ (i16ToBits_lt s)]
    rcases le_or_lt 0 s with h0 | hneg
    · have := (i16ToBits_of_nonneg s h0 hs2).2
      constructor <;> (intro _; omega)
    · have := (i16ToBits_of_neg s hneg hs1).2
      constructor <;> (intro h; omega)
  unfold requantize_sample
  rw [if_neg (by omega)]
  simp only [hi_mask_val (16-d) (by omega) (by omega), hiff]

/-- C2 witness: the four scenario values from the source's `test_requantize`. -/
theorem requantize_sample_mask_formula_witness :
    requantize_sample (-1) 1 = -32768 ∧ requantize_sample 0 1 = 32767 ∧
    requantize_sample 10 8 = 255 ∧ requantize_sample 256 8 = 511 := by
  refine ⟨?_, ?_, ?_, ?_⟩
  · rw [requantize_sample_mask_formula (-1) 1 (by norm_num) (by norm_num) (by norm_num)
      (by norm_num)]
    decide
  · rw [requantize_sample_mask_formula 0 1 (by norm_num) (by norm_num) (by norm_num)
      (by norm_num)]
    decide
  · rw [requantize_sample_mask_formula 10 8 (by norm_num) (by norm_num) (by norm_num)
      (by norm_num)]
    decide
  · rw [requantize_sample_mask_formula 256 8 (by norm_num) (by norm_num) (by norm_num)
      (by norm_num)]
    decide

/-- C4: requantization moves a sample by strictly less than one quantization
step `2^(16-d)`, for every depth `1 ≤ d ≤ 16`. -/
theorem requantize_sample_dist_lt (s : Int) (d : Nat) (hd1 : 1 ≤ d) (hd16 : d ≤ 16)
    (hs1 : -32768 ≤ s) (hs2 : s < 32768) :
    |requantize_sample s d - s| < 2^(16-d) := by
  rcases eq_or_lt_of_le hd16 with h16 | h15
  · subst h16
    simp [requantize_sample]
  · have hd15 : d ≤ 15 := by omega
    have hppos : (0:ℤ) < 2^(16-d) := by positivity
    have h1 : 0 ≤ s % 2^(16-d) := Int.emod_nonneg s (ne_of_gt hppos)
    have h2 : s % 2^(16-d) < 2^(16-d) := Int.emod_lt_of_pos s hppos
    rcases le_or_lt 0 s with h0 | hneg
    · obtain ⟨he, _, _⟩ := requantize_sample_eq_nonneg s d hd1 hd15 h0 hs2
      rw [he, abs_lt]
      constructor <;> linarith
    · obtain ⟨he, _, _⟩ := requantize_sample_eq_neg s d hd1 hd15 hneg hs1
      rw [he, abs_lt]
      constructor <;> linarith

/-- C4 witness at `s = 100`, `d = 5`. -/
theorem requantize_sample_dist_lt_witness : |requantize_sample 100 5 - 100| < 2^(16-5) :=
  requantize_sample_dist_lt 100 5 (by norm_num) (by norm_num) (by norm_num) (by norm_num)

/-- C10: requantization preserves the sign bit: the result's most significant
bit equals the input's, and the result is negative iff the input is. -/
theorem requantize_sample_sign (s : Int) (d : Nat) (hd1 : 1 ≤ d) (hd16 : d ≤ 16)
    (hs1 : -32768 ≤ s) (hs2 : s < 32768) :
    i16ToBits (requantize_sample s d) &&& 32768 = i16ToBits s &&& 32768 ∧
    (requantize_sample s d < 0 ↔ s < 0) := by
  rcases eq_or_lt_of_le hd16 with h16 | h15
  · subst h16
    simp [requantize_sample]
  · have hd15 : d ≤ 15 := by omega
    rcases le_or_lt 0 s with h0 | hneg
    · obtain ⟨_, h0', hlt'⟩ := requantize_sample_eq_nonneg s d hd1 hd15 h0 hs2
      constructor
      · rw [i16ToBits_msb _ (by linarith) hlt', i16ToBits_msb s hs1 hs2,
          if_neg (not_lt.mpr h0'), if_neg (not_lt.mpr h0)]
      · constructor <;> (intro h; omega)
    · obtain ⟨_, hneg', hge'⟩ := requantize_sample_eq_neg s d hd1 hd15 hneg hs1
      constructor
      · rw [i16ToBits_msb _ hge' (by linarith), i16ToBits_msb s hs1 hs2,
          if_pos hneg', if_pos hneg]
      · constructor <;> (intro _; omega)

/-- C10 witness at `s = -1000`, `d = 4`. -/
theorem requantize_sample_sign_witness :
    i16ToBits (requantize_sample (-1000) 4) &&& 32768 = i16ToBits (-1000) &&& 32768 ∧
    (requantize_sample (-1000) 4 < 0 ↔ (-1000 : Int) < 0) :=
  requantize_sample_sign (-1000) 4 (by norm_num) (by norm_num) (by norm_num) (by norm_num)

/-- C5: requantization is idempotent on whole signals, bit for bit. -/
theorem requantize_idem (sound : Sound) (d : Nat) (hd1 : 1 ≤ d) (hd16 : d ≤ 16)
    (h : ∀ ch ∈ sound.channels, ∀ s ∈ ch.samples, -32768 ≤ s ∧ s < 32768) :
    requantize (requantize sound d) d = requantize sound d := by
  unfold requantize
  simp only [List.map_map]
  congr 1
  apply List.map_congr_left
  intro ch hch
  simp only [Function.comp]
  congr 1
  simp only [List.map_map]
  apply List.map_congr_left
  intro s hs
  exact requantize_sample_idem s d hd1 hd16 (h ch hch s hs).1 (h ch hch s hs).2

/-- C5 witness on a one-channel, one-sample signal at depth 3. -/
theorem requantize_idem_witness :
    requantize (requantize ⟨[⟨[5]⟩], 44100⟩ 3) 3 = requantize ⟨[⟨[5]⟩], 44100⟩ 3 :=
  requantize_idem ⟨[⟨[5]⟩], 44100⟩ 3 (by norm_num) (by norm_num) (by decide)

/-- C6: requantizing at the full bit depth 16 is the identity on signals. -/
theorem requantize_sixteen_id (sound : Sound) : requantize sound 16 = sound := by
  unfold requantize
  simp only [requantize_sample, if_pos, List.map_id']

/-- C3: under lerp's precondition, with `x = ⌊f⌋`, `y = min (x+1) (len-1)` and
`a` the fractional part of `f`, the `Nearest` policy returns `values[x]` when
`a < 1/2` and `values[y]` otherwise, and the `Linear` policy returns
`(1-a) * values[x] + a * values[y]`. -/
theorem lerp_spec (values : List Int) (f : ℚ) (x y : Nat) (a : ℚ)
    (hne : values ≠ []) (h0 : 0 ≤ f) (hf : f < (values.length : ℚ))
    (hx : (x : ℤ) = ⌊f⌋) (hy : y = min (x + 1) (values.length - 1)) (ha : a = f - ⌊f⌋) :
    (lerp values f .Nearest
      = if a < 1/2 then ((values.getD x 0 : ℤ) : ℚ) else ((values.getD y 0 : ℤ) : ℚ)) ∧
    lerp values f .Linear
      = (1 - a) * ((values.getD x 0 : ℤ) : ℚ) + a * ((values.getD y 0 : ℤ) : ℚ) := by
  have hfl : 0 ≤ ⌊f⌋ := Int.floor_nonneg.mpr h0
  have hxv : x = (⌊f⌋).toNat := by omega
  subst hy ha hxv
  exact ⟨rfl, rfl⟩

/-- C3 witness: the three scenario values from the source's `test_lerp`. -/
theorem lerp_spec_witness :
    lerp [1, 2, 3, 4, 5, 6, 7, 8, 9, 10] (24/5) .Nearest = 6 ∧
    lerp [1, 2, 3, 4, 5, 6, 7, 8, 9, 10] (22/5) .Nearest = 5 ∧
    lerp [1, 2, 3, 4, 5, 6, 7, 8, 9, 10] (24/5) .Linear = 29/5 := by
  have hf1 : ⌊(24/5 : ℚ)⌋ = 4 := by norm_num [Int.floor_eq_iff]
  have hf2 : ⌊(22/5 : ℚ)⌋ = 4 := by norm_num [Int.floor_eq_iff]
  obtain ⟨h1, h3⟩ := lerp_spec [1, 2, 3, 4, 5, 6, 7, 8, 9, 10] (24/5) 4 5 (4/5)
    (by decide) (by norm_num) (by norm_num) (by rw [hf1]; norm_num) (by norm_num)
    (by rw [hf1]; norm_num)
  obtain ⟨h2, _⟩ := lerp_spec [1, 2, 3, 4, 5, 6, 7, 8, 9, 10] (22/5) 4 5 (2/5)
    (by decide) (by norm_num) (by norm_num) (by rw [hf2]; norm_num) (by norm_num)
    (by rw [hf2]; norm_num)
  refine ⟨?_, ?_, ?_⟩
  · rw [h1, if_neg (by norm_num)]
    norm_num
  · rw [h2, if_pos (by norm_num)]
    norm_num
  · rw [h3]
    norm_num

lemma headI_mem {α : Type} [Inhabited α] {l : List α} (h : l ≠ []) : l.headI ∈ l := by
  cases l with
  | nil => exact absurd rfl h
  | cons c cs => exact List.mem_cons_self c cs

/-- Unfolding of `resample` on a sound whose first channel is non-empty. -/
lemma resample_of_ne_zero (sound : Sound) (rate : Nat) (interp : Interpolation)
    (h : sound.channels.headI.samples.length ≠ 0) :
    resample sound rate interp =
      { channels := sound.channels.map (fun channel =>
          { samples := (List.range ((roundQ ((sound.channels.headI.samples.length : ℚ) *
              ((rate : ℚ) / (sound.sample_rate : ℚ)))).toNat)).map (fun (i : Nat) =>
              clampI16 (roundQ (lerp channel.samples
                ((i : ℚ) * (1 / ((rate : ℚ) / (sound.sample_rate : ℚ)))) interp))) })
        sample_rate := rate } := by
  simp only [resample]
  rw [if_neg h]

lemma roundQ_zero : roundQ 0 = 0 := by
  rw [roundQ, if_pos le_rfl, zero_add]
  norm_num [Int.floor_eq_iff]

/-- C7: resampling preserves the channel count, and gives every channel
`round(n * rate / sound.sample_rate)` samples, where `n` is the common length
of the input channels. -/
theorem resample_count (sound : Sound) (rate : Nat) (interp : Interpolation) (n : Nat)
    (hne : sound.channels ≠ []) (hlen : ∀ ch ∈ sound.channels, ch.samples.length = n)
    (hsr : 0 < sound.sample_rate) :
    (resample sound rate interp).channels.length = sound.channels.length ∧
    ∀ ch ∈ (resample sound rate interp).channels,
      ch.samples.length = (roundQ ((n : ℚ) * rate / sound.sample_rate)).toNat := by
  have hheadlen : sound.channels.headI.samples.length = n := hlen _ (headI_mem hne)
  by_cases hn0 : n = 0
  · subst hn0
    have hbranch : resample sound rate interp =
        { channels := sound.channels, sample_rate := rate } := by
      simp [resample, hheadlen]
    rw [hbranch]
    refine ⟨rfl, ?_⟩
    intro ch hch
    rw [hlen ch hch]
    simp [roundQ_zero]
  · rw [resample_of_ne_zero sound rate interp (by omega)]
    refine ⟨by simp, ?_⟩
    intro ch hch
    simp only [List.mem_map] at hch
    obtain ⟨ch0, _, rfl⟩ := hch
    simp only [List.length_map, List.length_range]
    rw [hheadlen, mul_div_assoc]

/-- C7 witness on a one-channel sound of two samples at 4 Hz, resampled to 2 Hz. -/
theorem resample_count_witness :
    (resample ⟨[⟨[1, 2]⟩], 4⟩ 2 .Nearest).channels.length = ([⟨[1, 2]⟩] : List Channel).length ∧
    ∀ ch ∈ (resample ⟨[⟨[1, 2]⟩], 4⟩ 2 .Nearest).channels,
      ch.samples.length = (roundQ ((2 : ℚ) * 2 / 4)).toNat :=
  resample_count ⟨[⟨[1, 2]⟩], 4⟩ 2 .Nearest 2 (by decide) (by decide) (by decide)

/-- C8: resampling a sound whose channels are all empty returns the channels
untouched, with only the sample rate replaced by the target rate. -/
theorem resample_empty_passthrough (sound : Sound) (rate : Nat) (interp : Interpolation)
    (hne : sound.channels ≠ []) (hempty : ∀ ch ∈ sound.channels, ch.samples = []) :
    resample sound rate interp = { channels := sound.channels, sample_rate := rate } := by
  have h0 : sound.channels.headI.samples.length = 0 := by
    rw [hempty _ (headI_mem hne)]
    rfl
  simp [resample, h0]

/-- C8 witness on a two-channel, zero-sample sound. -/
theorem resample_empty_passthrough_witness :
    resample ⟨[⟨[]⟩, ⟨[]⟩], 44100⟩ 8000 .Linear = ⟨[⟨[]⟩, ⟨[]⟩], 8000⟩ :=
  resample_empty_passthrough ⟨[⟨[]⟩, ⟨[]⟩], 44100⟩ 8000 .Linear (by decide) (by decide)

/-- C9: every fractional index `i * (1 / (rate / sound.sample_rate))` that
`resample` passes to `lerp` satisfies lerp's assertions, for every channel of a
sound with equal-length non-empty channels: the bounds panic in `lerp` is
unreachable from `resample`. -/
theorem resample_upholds_lerp_pre (sound : Sound) (rate : Nat) (interp : Interpolation)
    (n i : Nat) (hne : sound.channels ≠ []) (hlen : ∀ ch ∈ sound.channels, ch.samples.length = n)
    (hn : 0 < n) (hsr : 0 < sound.sample_rate) (hrt : 0 < rate)
    (hi : i < (resample sound rate interp).channels.headI.samples.length) :
    ∀ ch ∈ sound.channels,
      lerpPre ch.samples ((i : ℚ) * (1 / ((rate : ℚ) / (sound.sample_rate : ℚ)))) := by
  have hheadlen : sound.channels.headI.samples.length = n := hlen _ (headI_mem hne)
  have hcount : i < (roundQ ((n : ℚ) * ((rate : ℚ) / (sound.sample_rate : ℚ)))).toNat := by
    rw [resample_of_ne_zero sound rate interp (by omega)] at hi
    rcases hcs : sound.channels with _ | ⟨c, cs⟩
    · exact absurd hcs hne
    · rw [hcs] at hi hheadlen
      simp only [List.map_cons, List.headI, List.length_map, List.length_range] at hi hheadlen
      rw [hheadlen] at hi
      exact hi
  have hs : (0:ℚ) < (sound.sample_rate : ℚ) := by exact_mod_cast hsr
  have ht : (0:ℚ) < (rate : ℚ) := by exact_mod_cast hrt
  have hx0 : (0:ℚ) ≤ (n : ℚ) * ((rate : ℚ) / (sound.sample_rate : ℚ)) := by positivity
  have hr : roundQ ((n : ℚ) * ((rate : ℚ) / (sound.sample_rate : ℚ)))
      = ⌊(n : ℚ) * ((rate : ℚ) / (sound.sample_rate : ℚ)) + 1/2⌋ := by
    simp only [roundQ, if_pos hx0]
  have hzi : ((i : ℤ)) < ⌊(n : ℚ) * ((rate : ℚ) / (sound.sample_rate : ℚ)) + 1/2⌋ :=
    Int.lt_toNat.mp (hr ▸ hcount)
  have hile : ((i : ℚ)) + 1 ≤ (n : ℚ) * ((rate : ℚ) / (sound.sample_rate : ℚ)) + 1/2 := by
    have h1 := Int.le_floor.mp (Int.add_one_le_iff.mpr hzi)
    push_cast at h1
    exact h1
  have hflt : (i : ℚ) < (n : ℚ) * ((rate : ℚ) / (sound.sample_rate : ℚ)) := by linarith
  intro ch hch
  refine ⟨?_, by positivity, ?_⟩
  · intro hnil
    have hl := hlen ch hch
    rw [hnil] at hl
    simp at hl
    omega
  · rw [hlen ch hch, one_div_div]
    have hst : (0:ℚ) < (sound.sample_rate : ℚ) / (rate : ℚ) := by positivity
    have h2 : (i : ℚ) * ((sound.sample_rate : ℚ) / (rate : ℚ))
        < ((n : ℚ) * ((rate : ℚ) / (sound.sample_rate : ℚ)))
          * ((sound.sample_rate : ℚ) / (rate : ℚ)) := mul_lt_mul_of_pos_right hflt hst
    have h3 : ((n : ℚ) * ((rate : ℚ) / (sound.sample_rate : ℚ)))
        * ((sound.sample_rate : ℚ) / (rate : ℚ)) = (n : ℚ) := by field_simp
    linarith

/-- C9 witness: channel `[1, 2]` at 4 Hz resampled to 2 Hz, new index 0. -/
theorem resample_upholds_lerp_pre_witness :
    lerpPre (Channel.mk [1, 2]).samples ((0 : ℚ) * (1 / ((2 : ℚ) / ((4 : Nat) : ℚ)))) :=
  resample_upholds_lerp_pre ⟨[⟨[1, 2]⟩], 4⟩ 2 .Nearest 2 0 (by decide) (by decide)
    (by decide) (by decide) (by decide)
    (by
      rw [resample_of_ne_zero ⟨[⟨[1, 2]⟩], 4⟩ 2 .Nearest (by decide)]
      simp only [List.map_cons, List.headI, List.length_map, List.length_range]
      have h1 : ((2 : Nat) : ℚ) * ((2 : Nat) : ℚ) / ((4 : Nat) : ℚ) = 1 := by norm_num
      have h2 : roundQ 1 = 1 := by
        rw [roundQ, if_pos (by norm_num)]
        norm_num [Int.floor_eq_iff]
      norm_num [h1, h2])
    (Channel.mk [1, 2]) (by simp)

lemma stepBy_getElem? {α : Type} (c : Nat) (hc : 0 < c) (l : List α) :
    ∀ (k : Nat), (stepBy c l)[k]? = l[k * c]? := by
  induction l using stepBy.induct c with
  | case1 => simp [stepBy]
  | case2 x xs ih =>
    intro k
    rw [stepBy]
    cases k with
    | zero => simp
    | succ k =>
      rw [List.getElem?_cons_succ, ih k, List.getElem?_drop]
      have he : (k + 1) * c = (c - 1 + k * c) + 1 := by
        rw [add_mul, one_mul]
        omega
      rw [he, List.getElem?_cons_succ]

lemma stepBy_length {α : Type} (c : Nat) (hc : 0 < c) (l : List α) :
    (stepBy c l).length = (l.length + c - 1) / c := by
  induction l using stepBy.induct c with
  | case1 =>
    simp only [stepBy, List.length_nil]
    exact (Nat.div_eq_of_lt (by omega)).symm
  | case2 x xs ih =>
    rw [stepBy, List.length_cons, ih, List.length_drop, List.length_cons]
    rcases le_or_lt (c - 1) xs.length with h | h
    · have h1 : xs.length - (c - 1) + c - 1 = xs.length := by omega
      have h2 : xs.length + 1 + c - 1 = xs.length + c := by omega
      rw [h1, h2, Nat.add_div_right _ hc]
    · have h1 : xs.length - (c - 1) + c - 1 = c - 1 := by omega
      have h2 : (c - 1) / c = 0 := Nat.div_eq_of_lt (by omega)
      have h3 : xs.length + 1 + c - 1 = xs.length + c := by omega
      rw [h1, h2, h3]
      have h4 : (xs.length + c) / c = 1 := by
        apply Nat.div_eq_of_lt_le (by omega)
        omega
      omega

lemma mapM_option_eq_map {α β : Type} (f : α → Option β) (g : α → β) :
    ∀ (l : List α), (∀ a ∈ l, f a = some (g a)) → l.mapM f = some (l.map g) := by
  intro l
  induction l with
  | nil => intro _; rfl
  | cons x xs ih =>
    intro h
    rw [List.mapM_cons, h x (List.mem_cons_self x xs),
      ih (fun a ha => h a (List.mem_cons_of_mem x ha))]
    rfl

lemma range_map_getD {α : Type} (d : α) : ∀ (l : List α),
    (List.range l.length).map (fun i => l.getD i d) = l := by
  intro l
  induction l with
  | nil => rfl
  | cons x xs ih =>
    rw [List.length_cons, List.range_succ_eq_map, List.map_cons, List.map_map]
    simp only [List.getD_cons_zero, Function.comp_def, Nat.succ_eq_add_one, List.getD_cons_succ]
    rw [ih]

/-- C1 (amended): when `c ≥ 1` divides the flat length, deinterleaving
(`Sound.new`) followed by reinterleaving (`to_source`) reproduces the flat
sequence exactly, and every channel holds `len / c` samples. When `c` does not
divide the length the code does not truncate: channel `i` keeps
`⌈(len - i) / c⌉` samples (unequal across channels) and `to_source` indexes
out of bounds; see the counterexample. -/
theorem deinterleave_interleave_round_trip (flat : List Int) (c rate : Nat)
    (hc : 0 < c) (hdvd : c ∣ flat.length) :
    (Sound.new c flat rate).to_source = some flat ∧
    ∀ ch ∈ (Sound.new c flat rate).channels, ch.samples.length = flat.length / c := by
  obtain ⟨m, hm⟩ := hdvd
  have hchanlen : ∀ i < c, (stepBy c (flat.drop i)).length = m := by
    intro i hi
    rw [stepBy_length c hc, List.length_drop, hm]
    rcases Nat.eq_zero_or_pos m with hm0 | hm0
    · subst hm0
      rw [Nat.mul_zero, Nat.zero_sub]
      exact Nat.div_eq_of_lt (by omega)
    · have hcm : c ≤ c * m := Nat.le_mul_of_pos_right c hm0
      have h1 : c * m - i + c - 1 = c * m + (c - 1 - i) := by omega
      rw [h1, Nat.mul_add_div hc, Nat.div_eq_of_lt (show c - 1 - i < c by omega),
        Nat.add_zero]
  have hlen0 : (stepBy c flat).length = m := by
    have h := hchanlen 0 hc
    rwa [List.drop_zero] at h
  have hch0 : (Sound.new c flat rate).channels[0]? = some ⟨stepBy c flat⟩ := by
    simp [Sound.new, List.getElem?_range hc]
  have hchanslen : (Sound.new c flat rate).channels.length = c := by
    simp [Sound.new]
  constructor
  · rw [Sound.to_source, hch0, Option.some_bind, hchanslen]
    have hsamples : (Channel.mk (stepBy c flat)).samples.length = m := hlen0
    rw [hsamples]
    have hmapm : (List.range (c * m)).mapM (fun (i : Nat) =>
        ((Sound.new c flat rate).channels[i % c]?).bind
          (fun ch => ch.samples[i / c]?)) =
        some ((List.range (c * m)).map (fun i => flat.getD i 0)) := by
      apply mapM_option_eq_map
      intro i hi
      have hic : i < c * m := List.mem_range.mp hi
      have himod : i % c < c := Nat.mod_lt i hc
      have hchi : (Sound.new c flat rate).channels[i % c]? =
          some ⟨stepBy c (flat.drop (i % c))⟩ := by
        simp [Sound.new, List.getElem?_range himod]
      rw [hchi, Option.some_bind]
      have hidx : (stepBy c (flat.drop (i % c)))[i / c]? = flat[i]? := by
        rw [stepBy_getElem? c hc, List.getElem?_drop]
        congr 1
        rw [Nat.mul_comm]
        exact Nat.mod_add_div i c
      rw [hidx]
      have hilt : i < flat.length := by omega
      rw [List.getElem?_eq_getElem hilt]
      congr 1
      rw [List.getD_eq_getElem?_getD, List.getElem?_eq_getElem hilt, Option.getD_some]
    rw [hmapm]
    congr 1
    rw [← hm]
    exact range_map_getD 0 flat
  · intro ch hch
    simp only [Sound.new, List.mem_map, List.mem_range] at hch
    obtain ⟨i, hi, rfl⟩ := hch
    have := hchanlen i hi
    simp only [this]
    rw [hm, Nat.mul_div_cancel_left m hc]

/-- C1 counterexample: for `flat = [1, 2, 3]` and `c = 2` the deinterleave step
does not truncate — channel 0 keeps 2 samples and channel 1 keeps 1 (not
`⌊3/2⌋ = 1` each), and reinterleaving indexes out of bounds instead of
producing `[1, 2]`. -/
theorem deinterleave_trunc_counterexample :
    (Sound.new 2 [1, 2, 3] 44100).to_source ≠ some [1, 2] ∧
    (Sound.new 2 [1, 2, 3] 44100).channels.map (fun ch => ch.samples.length) ≠ [1, 1] := by
  have h : Sound.new 2 [1, 2, 3] 44100 =
      ⟨[⟨[1, 3]⟩, ⟨[2]⟩], 44100⟩ := by
    simp [Sound.new, stepBy, List.range_succ]
  rw [h]
  decide

/-- C1 witness: stereo round trip on `[1, 2, 3, 4]`. -/
theorem deinterleave_interleave_round_trip_witness :
    (Sound.new 2 [1, 2, 3, 4] 44100).to_source = some [1, 2, 3, 4] ∧
    ∀ ch ∈ (Sound.new 2 [1, 2, 3, 4] 44100).channels,
      ch.samples.length = ([1, 2, 3, 4] : List Int).length / 2 :=
  deinterleave_interleave_round_trip [1, 2, 3, 4] 2 44100 (by norm_num) (by decide)

end Krusz
